import Mathlib

/-!
# Verification of the HDVA hallucination-detection core

A shallow embedding of `src/backend/agents/hallucination_agent.py`:
the tokenizer, the structural (AST) and surface feature extractors,
the combined `CodeFeatureExtractor`, the random-forest inference path,
model persistence, and the synthetic dataset generator.

Python dictionaries are embedded as insertion-ordered association lists
over `Rat` values (Python ints and floats both become exact rationals;
none of the verified properties depend on binary floating-point rounding).
External libraries (CPython `ast`, `re`, `random`, scikit-learn, joblib)
are not repository code: the parser is a parameter `parse`, regular
expressions are compiled to equivalent scanners, and the stochastic /
numeric libraries are given computable deterministic models matching
their documented contracts at the granularity the properties use.
-/

namespace HDVA

/-- A Python dict with string keys and numeric values: an
insertion-ordered association list. Keys are unique by construction in
every dict the agent builds. -/
abbrev PyDict := List (String × Rat)

/-- Python `d.get(k, 0)` — lookup with default 0, as every consumer in the agent
does (`feats.get(k, 0)`). -/
def dget (d : PyDict) (k : String) : Rat :=
  match d.find? (fun kv => kv.1 = k) with
  | some kv => kv.2
  | none => 0

/-- Python `d.get(k)` without a default: `none` when the key is absent. -/
def dfind? (d : PyDict) (k : String) : Option Rat :=
  (d.find? (fun kv => kv.1 = k)).map Prod.snd

/-- Python `d.keys()`, in insertion order. -/
def dkeys (d : PyDict) : List String := d.map Prod.fst

/-- Python `d[k] = v`: overwrite in place when present, append when fresh. -/
def dset (d : PyDict) (k : String) (v : Rat) : PyDict :=
  if (dkeys d).contains k then
    d.map (fun kv => if kv.1 = k then (k, v) else kv)
  else d ++ [(k, v)]

/-- Python `d1.update(d2)`. -/
def dictUpdate (d1 d2 : PyDict) : PyDict :=
  d2.foldl (fun acc kv => dset acc kv.1 kv.2) d1

/-! ## Tokenizer (`tokenize_code`)

`re.sub(r'(\x27\x27\x27[\s\S]*?\x27\x27\x27|"""[\s\S]*?"""|\x27[^\x27]*\x27|"[^"]*")', ' ', code)`
followed by `re.findall(r'[A-Za-z_][A-Za-z0-9_\.]*', ...)`.
The substitution scans left to right; at each position the alternatives
are tried in order (triple-quoted non-greedy first, then single-line
quoted forms); on a match a single space is emitted and scanning resumes
after the match, otherwise the character is copied. -/

/-- Skip to just past the earliest occurrence of the closing triple
quote `qqq` (the non-greedy `[\s\S]*?` of the regex). -/
def findTripleClose (q : Char) : List Char → Option (List Char)
  | a :: b :: c :: rest =>
    if a = q ∧ b = q ∧ c = q then some rest
    else findTripleClose q (b :: c :: rest)
  | _ => none

/-- Given the text after an opening quote `q`, try to complete the
triple-quoted alternative: two more `q`s then a non-greedy body up to
the closing `qqq`. -/
def tryTriple (q : Char) : List Char → Option (List Char)
  | b :: d :: rest => if b = q ∧ d = q then findTripleClose q rest else none
  | _ => none

/-- Skip to just past the next `q` (the `[^q]*q` tail of the
single-line quoted alternatives; `[^q]` also matches newlines). -/
def findClose (q : Char) : List Char → Option (List Char)
  | [] => none
  | c :: rest => if c = q then some rest else findClose q rest

/-- The left-to-right scan of `re.sub`, replacing each matched quoted
region by one space. `fuel` bounds the recursion; it is called with the
input length, which suffices since every step consumes at least one
character. -/
def stripAux : Nat → List Char → List Char
  | 0, cs => cs
  | _ + 1, [] => []
  | fuel + 1, c :: cs =>
    if c = '\'' ∨ c = '"' then
      match tryTriple c cs with
      | some after => ' ' :: stripAux fuel after
      | none =>
        match findClose c cs with
        | some after => ' ' :: stripAux fuel after
        | none => c :: stripAux fuel cs
    else c :: stripAux fuel cs

/-- The class `[A-Za-z_]` (ASCII, as in the Python pattern). -/
def isIdentStart (c : Char) : Bool :=
  ('A' ≤ c ∧ c ≤ 'Z') ∨ ('a' ≤ c ∧ c ≤ 'z') ∨ c = '_'

/-- The class `[A-Za-z0-9_.]`. -/
def isIdentCont (c : Char) : Bool :=
  isIdentStart c ∨ ('0' ≤ c ∧ c ≤ '9') ∨ c = '.'

/-- Embeds `re.findall` for `[A-Za-z_][A-Za-z0-9_\.]*`: maximal runs.  The
accumulator holds the reversed characters of the token in progress. -/
def findTokensGo : List Char → Option (List Char) → List String
  | [], none => []
  | [], some acc => [⟨acc.reverse⟩]
  | c :: cs, none =>
    if isIdentStart c then findTokensGo cs (some [c])
    else findTokensGo cs none
  | c :: cs, some acc =>
    if isIdentCont c then findTokensGo cs (some (c :: acc))
    else (⟨acc.reverse⟩ : String) :: findTokensGo cs none

/-- Embeds `tokenize_code(code)`: strip quoted literals, then extract
identifier-like tokens. -/
def tokenize_code (code : String) : List String :=
  findTokensGo (stripAux code.data.length code.data) none

/-! ## Python AST model and `ast_features`

CPython's `ast.parse` is external; the agent only inspects
`type(node).__name__` and `ast.iter_child_nodes`, so a parsed tree is a
rose tree of kind names and `parse : String → Option PyAst` is a
parameter (`none` embeds the `except Exception` branch). -/

/-- A parsed syntax tree: node kind name plus children. -/
inductive PyAst where
  | node (kind : String) (children : List PyAst)

mutual
/-- All node kind names in preorder (the multiset the `Counter`
accumulates). -/
def PyAst.kinds : PyAst → List String
  | .node k cs => k :: kindsList cs

def kindsList : List PyAst → List String
  | [] => []
  | t :: ts => PyAst.kinds t ++ kindsList ts
end

/-- Embeds `counter.get(k, 0)`. -/
def countKind (t : PyAst) (k : String) : Nat := (PyAst.kinds t).count k

mutual
/-- The `visit(node, depth)` recursion: the running `max_depth` after
visiting `t` at depth `d`, folded into accumulator `acc = max_depth`
so far. `visitDepth t d` is the maximum over all nodes of their depth,
starting the root at `d`. -/
def visitDepth : PyAst → Nat → Nat
  | .node _ cs, d => visitDepthList cs (d + 1) d

def visitDepthList : List PyAst → Nat → Nat → Nat
  | [], _, acc => acc
  | t :: ts, d, acc => visitDepthList ts d (max acc (visitDepth t d))
end

mutual
/-- Canonical specification: the list of depths of every node, the root
of a tree passed at depth `d` contributing `d`. -/
def nodeDepths : PyAst → Nat → List Nat
  | .node _ cs, d => d :: nodeDepthsList cs (d + 1)

def nodeDepthsList : List PyAst → Nat → List Nat
  | [], _ => []
  | t :: ts, d => nodeDepths t d ++ nodeDepthsList ts d
end

/-- The six extra per-kind counts captured on success. -/
def perKindNames : List String := ["If", "For", "While", "Call", "Assign", "Return"]

/-- Embeds `ast_features(code)`, with the external parser as a parameter.  On
parse failure the `except` branch builds a five-key dict; on success the
`Counter`-based dict, in the insertion order of the Python code. -/
def ast_features (parse : String → Option PyAst) (code : String) : PyDict :=
  match parse code with
  | none =>
    [("ast_parsable", 0), ("num_functions", 0), ("num_classes", 0),
     ("num_imports", 0), ("max_depth", 0)]
  | some tree =>
    [("ast_parsable", 1),
     ("num_functions", (countKind tree "FunctionDef" : Rat)),
     ("num_classes", (countKind tree "ClassDef" : Rat)),
     ("num_imports", ((countKind tree "Import" + countKind tree "ImportFrom" : Nat) : Rat)),
     ("max_depth", (visitDepth tree 0 : Rat))]
    ++ perKindNames.map (fun k => ("ast_" ++ k ++ "_count", (countKind tree k : Rat)))

/-! ## Surface features (`surface_features`) -/

/-- Python `str.splitlines()` over the common boundaries. The accumulator holds
the reversed characters of the current line; a trailing terminator does
not add an empty final line, and the empty string yields no lines. -/
def splitlinesAux : List Char → List Char → List String
  | [], [] => []
  | [], acc => [⟨acc.reverse⟩]
  | '\r' :: '\n' :: rest, acc => (⟨acc.reverse⟩ : String) :: splitlinesAux rest []
  | '\n' :: rest, acc => (⟨acc.reverse⟩ : String) :: splitlinesAux rest []
  | '\r' :: rest, acc => (⟨acc.reverse⟩ : String) :: splitlinesAux rest []
  | c :: rest, acc => splitlinesAux rest (c :: acc)

def pySplitlines (s : String) : List String := splitlinesAux s.data []

/-- Python `str.strip()` whitespace. -/
def isPySpace (c : Char) : Bool :=
  c = ' ' ∨ c = '\t' ∨ c = '\n' ∨ c = '\r' ∨ c = '\x0B' ∨ c = '\x0C'

def pyStrip (s : String) : String :=
  ⟨((s.data.dropWhile isPySpace).reverse.dropWhile isPySpace).reverse⟩

/-- Embeds the test that a stripped line begins with the comment mark. -/
def isCommentLine (ln : String) : Bool :=
  List.isPrefixOf "#".data (pyStrip ln).data

/-- Embeds `surface_features(code)`.  Here `comment_ratio` is the exact rational
value of the float division `n_comments / max(1, n_lines)`. -/
def surface_features (code : String) : PyDict :=
  let lines := pySplitlines code
  let n_lines := lines.length
  let n_chars := code.length
  let n_comments := (lines.filter isCommentLine).length
  let n_blank := (lines.filter (fun ln => pyStrip ln = "")).length
  let n_tokens := (tokenize_code code).length
  [("n_lines", (n_lines : Rat)), ("n_chars", (n_chars : Rat)),
   ("n_comments", (n_comments : Rat)), ("n_blank", (n_blank : Rat)),
   ("n_tokens", (n_tokens : Rat)),
   ("comment_ratio", mkRat n_comments (max 1 n_lines))]

/-- Embeds `CodeFeatureExtractor._numeric_features`: `nf = \x7b\x7d`, update with the
AST features, update with the surface features. -/
def numeric_features (parse : String → Option PyAst) (code : String) : PyDict :=
  dictUpdate (dictUpdate [] (ast_features parse code)) (surface_features code)

/-! ## TF-IDF vectorizer

scikit-learn's `TfidfVectorizer` is external library code.  It is
modelled at the granularity the agent relies on: `fit` freezes a
size-capped vocabulary chosen by corpus term frequency (lowercased, as
the library lowercases by default) and fails on an empty vocabulary;
`transform` maps a document to one weight per vocabulary entry (here
term count times a smoothed rational inverse document frequency, a
computable stand-in for the library's logarithmic idf and normalization,
which no verified property depends on); transforming before fitting
raises `NotFittedError`. -/

/-- Lowercasing the analyzer applies to every token. -/
def lowerTok (s : String) : String := ⟨s.data.map Char.toLower⟩

/-- Python string comparison: lexicographic on code points. -/
def lexLe : List Char → List Char → Bool
  | [], _ => true
  | _ :: _, [] => false
  | a :: as, b :: bs =>
    if a.toNat < b.toNat then true
    else if b.toNat < a.toNat then false
    else lexLe as bs

def strLe (a b : String) : Bool := lexLe a.data b.data

/-- The relation form of `strLe`, for `sorted(...)` calls. -/
def strLeP (a b : String) : Prop := strLe a b = true

instance : DecidableRel strLeP := fun a b => instDecidableEqBool (strLe a b) true

/-- Python `sorted(xs)` on strings (stable; on the duplicate-free key lists the
agent sorts, equal to Python's Timsort output). -/
def pySorted (xs : List String) : List String := xs.insertionSort strLeP

/-- Frozen state of a fitted vectorizer: the vocabulary (sorted,
duplicate-free) with one idf weight per entry. -/
structure TfidfState where
  vocab : List String
  idf : List Rat

structure TfidfVectorizer where
  max_features : Nat
  fitted : Option TfidfState

/-- Document frequency of term `t` over tokenized documents. -/
def dfCount (docs : List (List String)) (t : String) : Nat :=
  (docs.filter (fun d => (d.map lowerTok).contains t)).length

/-- The capped vocabulary: all distinct lowercased tokens when they fit
under the cap, otherwise the `max_features` most frequent (ties broken
alphabetically), re-sorted alphabetically. -/
def buildVocab (maxf : Nat) (docs : List (List String)) : List String :=
  let terms := (docs.flatMap id).map lowerTok
  let distinct := pySorted terms.dedup
  if distinct.length ≤ maxf then distinct
  else
    let ranked := (distinct.map (fun t => (t, terms.count t))).insertionSort
      (fun a b => a.2 > b.2 ∨ (a.2 = b.2 ∧ strLeP a.1 b.1))
    pySorted ((ranked.take maxf).map Prod.fst)

/-- Smoothed idf weight for a term, as an exact rational. -/
def idfWeight (docs : List (List String)) (t : String) : Rat :=
  mkRat (1 + docs.length) (1 + dfCount docs t)

/-- Embeds `tfidf.fit(token_texts)`: freeze vocabulary and idf weights; an
empty vocabulary is the library's fatal `ValueError`. -/
def tfidfFit (v : TfidfVectorizer) (docs : List (List String)) :
    Except String TfidfVectorizer :=
  let vocab := buildVocab v.max_features docs
  if vocab = [] then .error "ValueError: empty vocabulary"
  else .ok { v with fitted := some ⟨vocab, vocab.map (idfWeight docs)⟩ }

/-- One row of `tfidf.transform(...).toarray()`: a weight per
vocabulary entry, in vocabulary order. -/
def tfidfRow (st : TfidfState) (tokens : List String) : List Rat :=
  (st.vocab.zip st.idf).map
    (fun ti => (((tokens.map lowerTok).count ti.1 : Nat) : Rat) * ti.2)

/-! ## `CodeFeatureExtractor` -/

structure CodeFeatureExtractor where
  tfidf : TfidfVectorizer
  numeric_feature_names : Option (List String)

/-- Embeds `CodeFeatureExtractor.__init__(max_features_tfidf)`: unfitted
vectorizer, `numeric_feature_names = None`. -/
def CodeFeatureExtractor.init (max_features_tfidf : Nat) : CodeFeatureExtractor :=
  ⟨⟨max_features_tfidf, none⟩, none⟩

/-- Embeds `CodeFeatureExtractor.fit(codes)`: fit the tf-idf model on the
joined token texts, then freeze `numeric_feature_names` as the sorted
list of the set-union of the numeric feature keys of `codes[:10]`. -/
def CodeFeatureExtractor.fit (parse : String → Option PyAst)
    (fe : CodeFeatureExtractor) (codes : List String) :
    Except String CodeFeatureExtractor :=
  let token_texts := codes.map tokenize_code
  match tfidfFit fe.tfidf token_texts with
  | .error e => .error e
  | .ok tf =>
    let sample_feats := (codes.take 10).map (numeric_features parse)
    let all_keys := (sample_feats.flatMap dkeys).dedup
    .ok { tfidf := tf, numeric_feature_names := some (pySorted all_keys) }

/-- Embeds `CodeFeatureExtractor.transform(codes)`: tf-idf row concatenated
with the numeric values looked up by the frozen name order
(`feats.get(k, 0)`).  Before `fit` both pieces of state are `None` and
the call raises (`NotFittedError` from the vectorizer; iterating `None`
would raise `TypeError`), embedded as `Except.error`. -/
def CodeFeatureExtractor.transform (parse : String → Option PyAst)
    (fe : CodeFeatureExtractor) (codes : List String) :
    Except String (List (List Rat)) :=
  match fe.tfidf.fitted, fe.numeric_feature_names with
  | some st, some names =>
    .ok (codes.map (fun code =>
      tfidfRow st (tokenize_code code) ++
        names.map (fun k => dget (numeric_features parse code) k)))
  | _, _ => .error "NotFittedError: transform called before fit"

/-- A boolean success test for an `Except` result. -/
def isOkB : Except String CodeFeatureExtractor → Bool
  | .ok _ => true
  | .error _ => false

/-- The fitted extractor a successful `fit` returned (dummy initial
state in the error case). -/
def fitOutput : Except String CodeFeatureExtractor → CodeFeatureExtractor
  | .ok fe => fe
  | .error _ => .init 0

/-- The size of the Vocabulary of a (fitted) extractor. -/
def vocabSize (fe : CodeFeatureExtractor) : Nat :=
  match fe.tfidf.fitted with
  | some st => st.vocab.length
  | none => 0

/-- The size of the NumericFeatureNameOrder of a (fitted) extractor. -/
def numericSize (fe : CodeFeatureExtractor) : Nat :=
  (fe.numeric_feature_names.getD []).length

/-- The `numeric_feature_names` of the result of a `fit` call. -/
def fittedNames (r : Except String CodeFeatureExtractor) : List String :=
  (fitOutput r).numeric_feature_names.getD []

/-! ## Random forest inference and persistence

A trained `RandomForestClassifier` is external library state; what the
agent uses of it is inference: each decision tree routes a feature row
to a leaf class, the forest's label is the majority vote and the
probability of class 1 (HALLUCINATED) is the fraction of trees voting
for it, exactly the spec's reading of bagging inference. -/

inductive DTree where
  | leaf (cls : Nat)
  | split (feat : Nat) (thr : Rat) (l r : DTree)

def DTree.predictOne : DTree → List Rat → Nat
  | .leaf c, _ => c
  | .split f thr l r, x => if x.getD f 0 ≤ thr then l.predictOne x else r.predictOne x

structure RandomForest where
  trees : List DTree

/-- Number of trees voting for class 1 on row `x`. -/
def RandomForest.votes1 (m : RandomForest) (x : List Rat) : Nat :=
  (m.trees.filter (fun t => t.predictOne x = 1)).length

/-- Embeds `predict_proba(X)[:, 1]` for one row: fraction of trees voting 1. -/
def RandomForest.proba1 (m : RandomForest) (x : List Rat) : Rat :=
  mkRat (m.votes1 x) m.trees.length

/-- Embeds `predict(X)` for one row: majority vote (ties go to class 0). -/
def RandomForest.label (m : RandomForest) (x : List Rat) : Nat :=
  if m.trees.length < 2 * m.votes1 x then 1 else 0

/-- One value of the dict `joblib.dump` persists. -/
inductive BundlePart where
  | fe (f : CodeFeatureExtractor)
  | clf (m : RandomForest)

/-- The persisted object: joblib is external and faithfully round-trips
Python objects, so the artifact is the dict itself,
`{"feature_extractor": fe, "model": clf}`. -/
abbrev SavedObj := List (String × BundlePart)

/-- Embeds the dump of the dict pairing the extractor with the model. -/
def joblib_dump (fe : CodeFeatureExtractor) (model : RandomForest) : SavedObj :=
  [("feature_extractor", .fe fe), ("model", .clf model)]

/-- Lookup `obj[key]` on the persisted dict. -/
def objGet (obj : SavedObj) (k : String) : Option BundlePart :=
  (obj.find? (fun kv => kv.1 = k)).map Prod.snd

/-- Embeds `load_model(path)`, returning the two stored parts;
`none` embeds the fatal `KeyError`/load failure path. -/
def load_model (obj : SavedObj) : Option (CodeFeatureExtractor × RandomForest) :=
  match objGet obj "feature_extractor", objGet obj "model" with
  | some (.fe f), some (.clf m) => some (f, m)
  | _, _ => none

/-- The inference path of `demo_predict` / the CLI on one snippet:
transform, then label and probability of the (single) row. -/
def predictOn (parse : String → Option PyAst) (fe : CodeFeatureExtractor)
    (model : RandomForest) (code : String) : Except String (Nat × Rat) :=
  (fe.transform parse [code]).map (fun rows =>
    let x := rows.getD 0 []
    (model.label x, model.proba1 x))

/-! ## Synthetic dataset generator

Python's `random` module and scikit-learn's `shuffle` are external; the
generator below is a computable deterministic stand-in (a 64-bit linear
congruential generator) matching their documented contract: a seeded
stream, fully determined by the seed.  `random.seed(seed)` replaces the
module's global state, embedded by threading an explicit incoming state
that the seeding step discards; `sklearn.utils.shuffle(random_state=seed)`
draws from its own freshly seeded generator. -/

structure PyRandom where
  state : Nat

/-- One generator step: new state and a pseudorandom draw. -/
def rngNext (g : PyRandom) : Nat × PyRandom :=
  let s := (6364136223846793005 * g.state + 1442695040888963407) % 2 ^ 64
  (s / 2 ^ 33, ⟨s⟩)

/-- Embeds `random.seed(seed)`. -/
def pySeed (seed : Nat) : PyRandom :=
  ⟨(seed + 11400714819323198485) % 2 ^ 64⟩

/-- A draw in `[0, n)` (`n = 0` degenerates to 0). -/
def randBelow (g : PyRandom) (n : Nat) : Nat × PyRandom :=
  let (v, g') := rngNext g
  (v % max 1 n, g')

/-- Embeds `random.choice(xs)`. -/
def pyChoice (g : PyRandom) (xs : List String) : String × PyRandom :=
  let (i, g') := randBelow g xs.length
  (xs.getD i "", g')

/-- Embeds `random.random()`: a rational in `[0, 1)`. -/
def pyRandom (g : PyRandom) : Rat × PyRandom :=
  let (v, g') := rngNext g
  (mkRat (v % 2 ^ 20) (2 ^ 20), g')

/-- The six templates of `synthetic_real_code_snippet`. -/
def realTemplates : List String :=
  ["def compute_sum(nums: list[int]) -> int:\n    return sum(nums)\n",
   "class MyClass:\n    def __init__(self, x):\n        self.x = x\n    def get(self):\n        return self.x\n",
   "import math\n\ndef circle_area(r: float) -> float:\n    return math.pi * r * r\n",
   "def read_file(path):\n    with open(path, 'r') as f:\n        return f.read()\n",
   "# simple example\ndef multiply(a, b):\n    return a * b\n",
   "from collections import Counter\n\ndef top_k(items, k=3):\n    c = Counter(items)\n    return c.most_common(k)\n"]

/-- The five templates of `synthetic_hallucinated_code_snippet`. -/
def hallTemplates : List String :=
  ["def transform_data(df):\n    return df.whenify().transmute()\n",
   "from fake_lib import hypercall\n\ndef process(x):\n    return hypercall(x, mode='super')\n",
   "def compute(x):\n    return vectorized_thingy(x)\n",
   "def model_predict(data):\n    return oracle_predictor(data)\n",
   "def foo():\n    unknown = MagicTransformer().apply(foo=42)\n    return unknown\n"]

/-- Embeds `synthetic_real_code_snippet(i)` with the generator state
threaded. -/
def synthetic_real_code_snippet (g : PyRandom) (i : Nat) : String × PyRandom :=
  let (t, g1) := pyChoice g realTemplates
  let (r, g2) := pyRandom g1
  (if r < mkRat 3 10 then t ++ "\n# generated id: " ++ toString i else t, g2)

/-- Embeds `synthetic_hallucinated_code_snippet(i)` with the generator state
threaded. -/
def synthetic_hallucinated_code_snippet (g : PyRandom) (i : Nat) :
    String × PyRandom :=
  let (t, g1) := pyChoice g hallTemplates
  let (r1, g2) := pyRandom g1
  let t1 := if r1 < mkRat 2 5 then "import numpy as np\n" ++ t else t
  let (r2, g3) := pyRandom g2
  (if r2 < mkRat 1 5 then t1 ++ "\n# hallucination id: " ++ toString i else t1, g3)

/-- The loop `for i in range(n): out.append(f(i))`, threading the generator. -/
def genLoop (f : PyRandom → Nat → String × PyRandom) (g : PyRandom) (n : Nat) :
    List String × PyRandom :=
  (List.range n).foldl
    (fun acc i =>
      let (s, g') := f acc.2 i
      (acc.1 ++ [s], g'))
    ([], g)

/-- Remove the element at index `i`. -/
def drawOut {α : Type} : List α → Nat → Option (α × List α)
  | [], _ => none
  | x :: xs, 0 => some (x, xs)
  | x :: xs, n + 1 => (drawOut xs n).map (fun p => (p.1, x :: p.2))

/-- A seeded Fisher–Yates shuffle, the model of
`sklearn.utils.shuffle(..., random_state=seed)` (applied to the zipped
snippet/label pairs, since the library permutes both lists
consistently). -/
def pyShuffleGo {α : Type} : Nat → PyRandom → List α → List α
  | 0, _, rest => rest
  | fuel + 1, g, rest =>
    let (i, g') := randBelow g rest.length
    match drawOut rest i with
    | some (x, rest') => x :: pyShuffleGo fuel g' rest'
    | none => rest

def pyShuffle {α : Type} (g : PyRandom) (xs : List α) : List α :=
  pyShuffleGo xs.length g xs

/-- Embeds `synthetic_dataset(n_real, n_hall, seed)`.  Here `g0` is the state of
the global `random` module before the call; `random.seed(seed)`
replaces it, so `g0` is discarded. -/
def synthetic_dataset (_g0 : PyRandom) (n_real n_hall seed : Nat) :
    List String × List Nat :=
  let g := pySeed seed
  let (reals, g1) := genLoop synthetic_real_code_snippet g n_real
  let (halls, _) := genLoop synthetic_hallucinated_code_snippet g1 n_hall
  let pairs := reals.map (fun s => (s, 0)) ++ halls.map (fun s => (s, 1))
  let shuffled := pyShuffle (pySeed seed) pairs
  (shuffled.map Prod.fst, shuffled.map Prod.snd)

/-! ## Helper lemmas -/

theorem charToNat_inj {a b : Char} (h : a.toNat = b.toNat) : a = b := by
  have hv : a.val = b.val := by
    unfold Char.toNat at h
    exact UInt32.toNat.inj h
  exact Char.ext hv

theorem lexLe_total : ∀ a b, lexLe a b = true ∨ lexLe b a = true
  | [], _ => .inl rfl
  | _ :: _, [] => .inr rfl
  | a :: as, b :: bs => by
    by_cases h1 : a.toNat < b.toNat
    · left; simp [lexLe, h1]
    · by_cases h2 : b.toNat < a.toNat
      · right; simp [lexLe, h2]
      · rcases lexLe_total as bs with h | h
        · left; simp [lexLe, h1, h2, h]
        · right; simp [lexLe, h1, h2, h]

theorem lexLe_antisymm : ∀ a b, lexLe a b = true → lexLe b a = true → a = b
  | [], [], _, _ => rfl
  | [], _ :: _, _, h2 => by simp [lexLe] at h2
  | _ :: _, [], h1, _ => by simp [lexLe] at h1
  | a :: as, b :: bs, h1, h2 => by
    by_cases hab : a.toNat < b.toNat
    · have : ¬ b.toNat < a.toNat := Nat.lt_asymm hab
      simp [lexLe, hab, this] at h2
    · by_cases hba : b.toNat < a.toNat
      · simp [lexLe, hab, hba] at h1
      · have hc : a = b :=
          charToNat_inj (Nat.le_antisymm (Nat.not_lt.mp hba) (Nat.not_lt.mp hab))
        have htail := lexLe_antisymm as bs
          (by simpa [lexLe, hab, hba] using h1)
          (by simpa [lexLe, hba, hab] using h2)
        rw [hc, htail]

theorem lexLe_head_le {a b : Char} {as bs : List Char}
    (h : lexLe (a :: as) (b :: bs) = true) : a.toNat ≤ b.toNat := by
  by_cases hab : a.toNat < b.toNat
  · exact Nat.le_of_lt hab
  · by_cases hba : b.toNat < a.toNat
    · simp [lexLe, hab, hba] at h
    · exact Nat.le_of_eq (Nat.le_antisymm (Nat.not_lt.mp hba) (Nat.not_lt.mp hab))

theorem lexLe_trans : ∀ a b c, lexLe a b = true → lexLe b c = true → lexLe a c = true
  | [], _, _, _, _ => rfl
  | _ :: _, [], _, h1, _ => by simp [lexLe] at h1
  | _ :: _, _ :: _, [], _, h2 => by simp [lexLe] at h2
  | a :: as, b :: bs, c :: cs, h1, h2 => by
    have hab := lexLe_head_le h1
    have hbc := lexLe_head_le h2
    by_cases hac : a.toNat < c.toNat
    · simp [lexLe, hac]
    · have hca : a.toNat = c.toNat :=
        Nat.le_antisymm (Nat.le_trans hab hbc) (Nat.not_lt.mp hac)
      have habe : a.toNat = b.toNat := by omega
      have hbce : b.toNat = c.toNat := by omega
      have hnab : ¬ a.toNat < b.toNat := by omega
      have hnba : ¬ b.toNat < a.toNat := by omega
      have hnbc : ¬ b.toNat < c.toNat := by omega
      have hncb : ¬ c.toNat < b.toNat := by omega
      have hnca : ¬ c.toNat < a.toNat := by omega
      have htail := lexLe_trans as bs cs
        (by simpa [lexLe, hnab, hnba] using h1)
        (by simpa [lexLe, hnbc, hncb] using h2)
      simp [lexLe, hac, hnca, htail]

instance : IsTotal String strLeP :=
  ⟨fun a b => lexLe_total a.data b.data⟩

instance : IsTrans String strLeP :=
  ⟨fun a b c => lexLe_trans a.data b.data c.data⟩

instance : IsAntisymm String strLeP := by
  refine ⟨fun a b h1 h2 => ?_⟩
  cases a with
  | mk da => cases b with
    | mk db => exact congrArg String.mk (lexLe_antisymm da db h1 h2)

theorem mem_pySorted {a : String} {l : List String} : a ∈ pySorted l ↔ a ∈ l :=
  (List.perm_insertionSort strLeP l).mem_iff

theorem pySorted_sorted (l : List String) : List.Sorted strLeP (pySorted l) :=
  List.sorted_insertionSort strLeP l

/-- Sorting the deduplicated key list depends only on which keys are
present: the layout is independent of insertion order. -/
theorem pySorted_dedup_ext {l1 l2 : List String}
    (h : ∀ x, x ∈ l1 ↔ x ∈ l2) : pySorted l1.dedup = pySorted l2.dedup := by
  have hd : List.Perm l1.dedup l2.dedup := by
    refine (List.perm_ext_iff_of_nodup (List.nodup_dedup l1) (List.nodup_dedup l2)).mpr ?_
    intro a
    simpa [List.mem_dedup] using h a
  have hp : List.Perm (pySorted l1.dedup) (pySorted l2.dedup) :=
    ((List.perm_insertionSort strLeP l1.dedup).trans hd).trans
      (List.perm_insertionSort strLeP l2.dedup).symm
  exact List.eq_of_perm_of_sorted hp (pySorted_sorted _) (pySorted_sorted _)

theorem pySorted_dedup_nodup (l : List String) : (pySorted l.dedup).Nodup :=
  (List.perm_insertionSort strLeP l.dedup).nodup_iff.mpr l.nodup_dedup

theorem dget_cons (a : String × Rat) (d : PyDict) (k : String) :
    dget (a :: d) k = if a.1 = k then a.2 else dget d k := by
  by_cases h : a.1 = k <;> simp [dget, List.find?_cons, h]

/-- Lookup with default 0 ignores an update at a different key. -/
theorem dget_dset_ne {d : PyDict} {k key : String} {v : Rat}
    (h : k ≠ key) : dget (dset d key v) k = dget d k := by
  have hkey : ¬ key = k := fun e => h e.symm
  unfold dset
  split
  case isTrue hc =>
    clear hc
    induction d with
    | nil => rfl
    | cons a d ih =>
      by_cases ha : a.1 = key
      · simp [List.map_cons, ha, dget_cons, hkey, ih]
      · simp [List.map_cons, ha, dget_cons, ih]
  case isFalse hc =>
    clear hc
    induction d with
    | nil => simp [dget_cons, hkey, dget]
    | cons a d ih =>
      simp only [List.cons_append, dget_cons, ih]

/-- A key is in the frozen numeric-name order iff it is a key of one of
the first 10 documents' feature dicts. -/
theorem mem_fittedNames {parse : String → Option PyAst}
    {fe0 : CodeFeatureExtractor} {corpus : List String} {key : String} :
    key ∈ fittedNames (fe0.fit parse corpus) ↔
      isOkB (fe0.fit parse corpus) = true ∧
        ∃ c ∈ corpus.take 10, key ∈ dkeys (numeric_features parse c) := by
  unfold CodeFeatureExtractor.fit
  cases h : tfidfFit fe0.tfidf (corpus.map tokenize_code) with
  | error e => simp [h, fittedNames, fitOutput, isOkB, CodeFeatureExtractor.init]
  | ok tf =>
    simp only [h, fittedNames, fitOutput, isOkB, Option.getD_some, eq_self_iff_true, true_and]
    rw [mem_pySorted, List.mem_dedup, List.mem_flatMap]
    constructor
    · rintro ⟨d, hd, hk⟩
      rcases List.mem_map.mp hd with ⟨c, hc, rfl⟩
      exact ⟨c, hc, hk⟩
    · rintro ⟨c, hc, hk⟩
      exact ⟨numeric_features parse c, List.mem_map.mpr ⟨c, hc, rfl⟩, hk⟩

/-- A successful `tfidfFit` freezes exactly the built vocabulary with
one idf weight per entry. -/
theorem tfidfFit_ok {v : TfidfVectorizer} {docs : List (List String)}
    {tf : TfidfVectorizer} (h : tfidfFit v docs = .ok tf) :
    tf = { v with
            fitted := some ⟨buildVocab v.max_features docs,
                            (buildVocab v.max_features docs).map (idfWeight docs)⟩ } := by
  unfold tfidfFit at h
  by_cases hv : buildVocab v.max_features docs = []
  · simp [hv] at h
  · simp only [if_neg hv, Except.ok.injEq] at h
    exact h.symm

/-- On a successful fit, the frozen name order is the sorted
deduplicated key union of the first 10 documents' feature dicts. -/
theorem fittedNames_ok {parse : String → Option PyAst}
    {fe0 : CodeFeatureExtractor} {corpus : List String}
    (hfit : isOkB (fe0.fit parse corpus) = true) :
    fittedNames (fe0.fit parse corpus) =
      pySorted (((corpus.take 10).map (numeric_features parse)).flatMap dkeys).dedup := by
  unfold CodeFeatureExtractor.fit at *
  cases h : tfidfFit fe0.tfidf (corpus.map tokenize_code) with
  | error e => simp [h, isOkB] at hfit
  | ok tf => simp [h, fittedNames, fitOutput]

theorem foldl_max_max (L : List Nat) :
    ∀ acc d : Nat, List.foldl max (max acc d) L = max acc (List.foldl max d L) := by
  induction L with
  | nil => intro acc d; rfl
  | cons x L ih =>
    intro acc d
    simp only [List.foldl_cons]
    rw [max_assoc, ih]

mutual
theorem visitDepth_eq_foldl : ∀ (t : PyAst) (d acc : Nat),
    max acc (visitDepth t d) = (nodeDepths t d).foldl max acc
  | .node k cs, d, acc => by
    simp only [visitDepth, nodeDepths, List.foldl_cons]
    rw [visitDepthList_eq_foldl cs (d + 1) d, foldl_max_max]

theorem visitDepthList_eq_foldl : ∀ (ts : List PyAst) (d acc : Nat),
    visitDepthList ts d acc = (nodeDepthsList ts d).foldl max acc
  | [], _, _ => rfl
  | t :: ts, d, acc => by
    simp only [visitDepthList, nodeDepthsList, List.foldl_append]
    rw [visitDepthList_eq_foldl ts d (max acc (visitDepth t d)),
        visitDepth_eq_foldl t d acc]
end

/-- The `visit` recursion started at the root computes the maximum of
all node depths. -/
theorem visitDepth_zero_eq (t : PyAst) :
    visitDepth t 0 = (nodeDepths t 0).foldl max 0 := by
  have h := visitDepth_eq_foldl t 0 0
  simpa using h

/-- A chain of single-child nodes, one node per depth level. -/
def chainAst : Nat → PyAst
  | 0 => .node "Chain" []
  | n + 1 => .node "Chain" [chainAst n]

theorem visitDepth_chain : ∀ (n d : Nat), visitDepth (chainAst n) d = d + n
  | 0, d => by simp [chainAst, visitDepth, visitDepthList]
  | n + 1, d => by
    simp only [chainAst, visitDepth, visitDepthList, visitDepth_chain n (d + 1)]
    omega

/-- On a parsed input, the `max_depth` entry is the `visit` result. -/
theorem dget_ast_success_max_depth (parse : String → Option PyAst)
    (code : String) (t : PyAst) (h : parse code = some t) :
    dget (ast_features parse code) "max_depth" = ((visitDepth t 0 : Nat) : Rat) := by
  simp only [ast_features, h]
  rfl

theorem stripAux_nil (f : Nat) : stripAux f [] = [] := by
  cases f <;> rfl

theorem strip_step_nonquote {c : Char} (h : ¬ (c = '\'' ∨ c = '"'))
    (f : Nat) (cs : List Char) :
    stripAux (f + 1) (c :: cs) = c :: stripAux f cs := by
  simp [stripAux, h]

theorem tryTriple_none_of_head_ne {q b : Char} (h : b ≠ q) :
    ∀ rest, tryTriple q (b :: rest) = none
  | [] => rfl
  | d :: rest => by simp [tryTriple, h]

theorem findClose_append_notin {q : Char} :
    ∀ (lit : List Char), q ∉ lit →
      ∀ rest, findClose q (lit ++ q :: rest) = some rest
  | [], _, rest => by simp [findClose]
  | c :: lit, h, rest => by
    have hc : ¬ c = q := fun e => h (e ▸ List.mem_cons_self c lit)
    simp only [List.cons_append, findClose, if_neg hc]
    exact findClose_append_notin lit (fun hm => h (List.mem_cons_of_mem c hm)) rest

theorem findClose_length {q : Char} : ∀ {cs rest : List Char},
    findClose q cs = some rest → rest.length ≤ cs.length
  | [], _, h => by simp [findClose] at h
  | c :: cs', rest, h => by
    by_cases hc : c = q
    · simp only [findClose, if_pos hc, Option.some.injEq] at h
      subst h
      exact Nat.le_succ _
    · simp only [findClose, if_neg hc] at h
      exact Nat.le_trans (findClose_length h) (Nat.le_succ _)

/-- A non-quote head does not affect the search for the closing triple
quote. -/
theorem findTripleClose_cons_ne {q a : Char} (ha : ¬ a = q) :
    ∀ cs, findTripleClose q (a :: cs) = findTripleClose q cs
  | [] => rfl
  | [_] => rfl
  | b :: c :: cs' => by
    simp [findTripleClose, ha]

theorem findTripleClose_append_notin {q : Char} :
    ∀ (body : List Char), q ∉ body →
      ∀ rest, findTripleClose q (body ++ q :: q :: q :: rest) = some rest
  | [], _, rest => by simp [findTripleClose]
  | x :: body', h, rest => by
    have hx : ¬ x = q := fun e => h (e ▸ List.mem_cons_self x body')
    rw [List.cons_append, findTripleClose_cons_ne hx]
    exact findTripleClose_append_notin body' (fun hm => h (List.mem_cons_of_mem x hm)) rest

theorem findTripleClose_length {q : Char} : ∀ {cs rest : List Char},
    findTripleClose q cs = some rest → rest.length ≤ cs.length
  | [], _, h => nomatch h
  | [_], _, h => nomatch h
  | [_, _], _, h => nomatch h
  | a :: b :: c :: cs', rest, h => by
    by_cases habc : a = q ∧ b = q ∧ c = q
    · simp only [findTripleClose, if_pos habc, Option.some.injEq] at h
      subst h
      simp only [List.length_cons]
      omega
    · simp only [findTripleClose, if_neg habc] at h
      have := findTripleClose_length h
      simp only [List.length_cons] at *
      omega

theorem tryTriple_length {q : Char} : ∀ {cs rest : List Char},
    tryTriple q cs = some rest → rest.length ≤ cs.length
  | [], _, h => nomatch h
  | [_], _, h => nomatch h
  | b :: d :: cs', rest, h => by
    by_cases hbd : b = q ∧ d = q
    · simp only [tryTriple, if_pos hbd] at h
      have := findTripleClose_length h
      simp only [List.length_cons]
      omega
    · simp only [tryTriple, if_neg hbd] at h
      exact nomatch h

/-- The scan result does not depend on the fuel, as long as the fuel
covers the input length (every step consumes at least one character). -/
theorem stripAux_fuel : ∀ (f1 : Nat) (cs : List Char) (f2 : Nat),
    cs.length ≤ f1 → cs.length ≤ f2 → stripAux f1 cs = stripAux f2 cs := by
  intro f1
  induction f1 with
  | zero =>
    intro cs f2 h1 _
    have hnil : cs = [] := List.eq_nil_of_length_eq_zero (Nat.le_zero.mp h1)
    subst hnil
    rw [stripAux_nil, stripAux_nil]
  | succ n ih =>
    intro cs f2 h1 h2
    cases cs with
    | nil => rw [stripAux_nil, stripAux_nil]
    | cons c cs' =>
      cases f2 with
      | zero => simp at h2
      | succ m =>
        simp only [List.length_cons] at h1 h2
        simp only [stripAux]
        by_cases hq : c = '\'' ∨ c = '"'
        · simp only [if_pos hq]
          cases ht : tryTriple c cs' with
          | some after =>
            have hlen := tryTriple_length ht
            dsimp only
            rw [ih after m (by omega) (by omega)]
          | none =>
            cases hf : findClose c cs' with
            | some after =>
              have hlen := findClose_length hf
              dsimp only
              rw [ih after m (by omega) (by omega)]
            | none =>
              dsimp only
              rw [ih cs' m (by omega) (by omega)]
        · simp only [if_neg hq]
          rw [ih cs' m (by omega) (by omega)]

/-- The scan copies a quote-free prefix verbatim. -/
theorem stripAux_copies_nonquote_front : ∀ (pre : List Char),
    (∀ c ∈ pre, ¬ (c = '\'' ∨ c = '"')) →
    ∀ (f : Nat) (rest : List Char),
      stripAux (pre.length + f) (pre ++ rest) = pre ++ stripAux f rest
  | [], _, f, rest => by simp
  | c :: pre', h, f, rest => by
    have hc : ¬ (c = '\'' ∨ c = '"') := h c (List.mem_cons_self c pre')
    have hstep : (c :: pre').length + f = (pre'.length + f) + 1 := by
      simp only [List.length_cons]
      omega
    rw [hstep, List.cons_append, strip_step_nonquote hc]
    rw [stripAux_copies_nonquote_front pre' (fun x hx => h x (List.mem_cons_of_mem c hx)) f rest]
    rfl

/-- One scan step on a complete single- or double-quoted literal: the
triple-quoted alternative fails, `q[^q]*q` matches the whole literal,
and a single space replaces it.  (When the body is empty, the text must
not continue with a third quote, which would instead open a
triple-quoted match attempt — exactly as in the regex.) -/
theorem strip_step_quoted {q : Char} (hq : q = '\'' ∨ q = '"')
    {body rest : List Char} (hbody : q ∉ body)
    (hemp : body = [] → rest.head? ≠ some q) (f : Nat) :
    stripAux (f + 1) (q :: (body ++ q :: rest)) = ' ' :: stripAux f rest := by
  cases body with
  | nil =>
    cases rest with
    | nil => simp [stripAux, hq, tryTriple, findClose]
    | cons r rest' =>
      have hr : ¬ r = q := by
        intro e
        exact (hemp rfl) (by simp [e])
      simp [stripAux, hq, tryTriple, hr, findClose]
  | cons b body' =>
    have hb : ¬ b = q := fun e => hbody (by simp [e])
    have hclose : findClose q ((b :: body') ++ q :: rest) = some rest :=
      findClose_append_notin (b :: body') hbody rest
    simp only [List.cons_append] at hclose ⊢
    simp [stripAux, hq, tryTriple_none_of_head_ne hb, hclose]

/-- One scan step on a complete triple-quoted literal with a quote-free
body: the triple-quoted alternative matches non-greedily up to the
closing triple quote, and a single space replaces the region. -/
theorem strip_step_triple {q : Char} (hq : q = '\'' ∨ q = '"')
    {body rest : List Char} (hbody : q ∉ body) (f : Nat) :
    stripAux (f + 1) (q :: q :: q :: (body ++ q :: q :: q :: rest)) =
      ' ' :: stripAux f rest := by
  have htriple : tryTriple q (q :: q :: (body ++ q :: q :: q :: rest)) = some rest := by
    have hfc : findTripleClose q (body ++ q :: q :: q :: rest) = some rest :=
      findTripleClose_append_notin body hbody rest
    simp [tryTriple, hfc]
  simp [stripAux, hq, htriple]

/-- Shared concrete parsers for witnesses: a parser that always fails,
and one that parses only the document `"ok"`. -/
def noParse : String → Option PyAst := fun _ => none

def okParse : String → Option PyAst :=
  fun s => if s = "ok" then some (.node "Module" []) else none

/-! ## The claims -/

/-- C1.  For every trained bundle (feature extractor plus classifier)
and every input, predicting with the pair obtained by
`load_model(joblib.dump(...))` yields exactly the same label and
probability as predicting with the original pair: save followed by load
reproduces identical transforms and predictions. -/
theorem save_load_round_trip (fe : CodeFeatureExtractor) (model : RandomForest) :
    ∃ loaded, load_model (joblib_dump fe model) = some loaded ∧
      ∀ (parse : String → Option PyAst) (x : String),
        predictOn parse loaded.1 loaded.2 x = predictOn parse fe model x :=
  ⟨(fe, model), rfl, fun _ _ => rfl⟩

/-- C2, counterexample.  The claim as stated is false: on an unparsable
input the degenerate dict does not carry the six per-kind count fields
at all — `ast_If_count` (and the five others) are absent, not present
with value 0. -/
theorem ast_failure_per_kind_key_absent :
    dfind? (ast_features noParse "def foo(:") "ast_If_count" = none ∧
    dfind? (ast_features noParse "def foo(:") "ast_Return_count" = none ∧
    "ast_Call_count" ∉ dkeys (ast_features noParse "def foo(:") := by
  decide

/-- C2, amended.  On every input that fails to parse, `ast_features`
returns (never raises) the degenerate record with `ast_parsable = 0`,
`num_functions = num_classes = num_imports = 0` and `max_depth = 0`;
the six per-kind count keys are absent from the record (downstream
lookups read them as 0 only through the `get(k, 0)` default). -/
theorem ast_features_unparsable_degenerate (parse : String → Option PyAst)
    (code : String) (h : parse code = none) :
    ast_features parse code =
      [("ast_parsable", 0), ("num_functions", 0), ("num_classes", 0),
       ("num_imports", 0), ("max_depth", 0)] ∧
    ∀ k ∈ perKindNames, ("ast_" ++ k ++ "_count") ∉ dkeys (ast_features parse code) := by
  constructor
  · simp [ast_features, h]
  · intro k hk
    simp only [ast_features, h]
    fin_cases hk <;> decide

theorem ast_features_unparsable_degenerate_witness :
    ast_features noParse "def foo(:" =
      [("ast_parsable", 0), ("num_functions", 0), ("num_classes", 0),
       ("num_imports", 0), ("max_depth", 0)] ∧
    ∀ k ∈ perKindNames, ("ast_" ++ k ++ "_count") ∉ dkeys (ast_features noParse "def foo(:") :=
  ast_features_unparsable_degenerate noParse "def foo(:" rfl

/-- C3.  After a completed fit, every call to `transform` produces
vectors of one constant length, `|Vocabulary| + |NumericFeatureNameOrder|`,
regardless of the input text. -/
theorem transform_length_invariant (parse : String → Option PyAst)
    (fe0 : CodeFeatureExtractor) (corpus : List String)
    (hfit : isOkB (fe0.fit parse corpus) = true) (s : String) :
    ∃ row, (fitOutput (fe0.fit parse corpus)).transform parse [s] = .ok [row] ∧
      row.length =
        vocabSize (fitOutput (fe0.fit parse corpus)) +
          numericSize (fitOutput (fe0.fit parse corpus)) := by
  unfold CodeFeatureExtractor.fit at *
  cases h : tfidfFit fe0.tfidf (corpus.map tokenize_code) with
  | error e => simp [h, isOkB] at hfit
  | ok tf =>
    have htf := tfidfFit_ok h
    subst htf
    simp only [h]
    refine ⟨_, rfl, ?_⟩
    simp [fitOutput, CodeFeatureExtractor.transform, vocabSize, numericSize,
      tfidfRow, List.length_append, List.length_map, List.length_zip, Nat.min_self]

theorem transform_length_invariant_witness :
    isOkB (CodeFeatureExtractor.fit noParse (.init 800) ["a", "ok"]) = true ∧
    ∃ row,
      (fitOutput (CodeFeatureExtractor.fit noParse (.init 800) ["a", "ok"])).transform
          noParse ["zz"] = .ok [row] ∧
      row.length =
        vocabSize (fitOutput (CodeFeatureExtractor.fit noParse (.init 800) ["a", "ok"])) +
          numericSize (fitOutput (CodeFeatureExtractor.fit noParse (.init 800) ["a", "ok"])) :=
  ⟨by decide, transform_length_invariant noParse (.init 800) ["a", "ok"] (by decide) "zz"⟩

/-- C4.  `fit` derives the numeric name order only from the first 10
documents of the corpus: a numeric feature key absent from every dict
of that prefix is absent from `numeric_feature_names`, and the numeric
portion of every transformed vector never reads it — overriding the
key's value in any feature dict leaves the looked-up vector unchanged,
even where it would be nonzero. -/
theorem late_numeric_key_excluded (parse : String → Option PyAst)
    (fe0 : CodeFeatureExtractor) (corpus : List String) (key : String)
    (habs : ∀ c ∈ corpus.take 10, key ∉ dkeys (numeric_features parse c)) :
    key ∉ fittedNames (fe0.fit parse corpus) ∧
    ∀ (d : PyDict) (v : Rat),
      (fittedNames (fe0.fit parse corpus)).map (dget (dset d key v)) =
        (fittedNames (fe0.fit parse corpus)).map (dget d) := by
  have hnot : key ∉ fittedNames (fe0.fit parse corpus) := by
    intro hmem
    rcases mem_fittedNames.mp hmem with ⟨-, c, hc, hk⟩
    exact habs c hc hk
  refine ⟨hnot, fun d v => ?_⟩
  apply List.map_congr_left
  intro k hk
  exact dget_dset_ne (fun e => hnot (e ▸ hk))

theorem late_numeric_key_excluded_witness :
    (∀ c ∈ (List.replicate 10 "a" ++ ["ok"]).take 10,
        "ast_If_count" ∉ dkeys (numeric_features okParse c)) ∧
    "ast_If_count" ∈ dkeys (numeric_features okParse "ok") ∧
    "ast_If_count" ∉ fittedNames
        (CodeFeatureExtractor.fit okParse (.init 800) (List.replicate 10 "a" ++ ["ok"])) :=
  ⟨by decide, by decide,
    (late_numeric_key_excluded okParse (.init 800)
      (List.replicate 10 "a" ++ ["ok"]) "ast_If_count" (by decide)).1⟩

/-- C5, counterexample.  The claim as stated is false: the traversal
has no depth bound at all — for no bound `B` is the reported
`max_depth` capped at `B`; a deeper parse tree always reports a larger
`max_depth` (the Python `visit` is plain unbounded recursion). -/
theorem ast_max_depth_unbounded :
    ¬ ∃ B : Nat, ∀ (parse : String → Option PyAst) (code : String) (t : PyAst),
        parse code = some t →
        dget (ast_features parse code) "max_depth" ≤ (B : Rat) := by
  rintro ⟨B, hB⟩
  have h := hB (fun _ => some (chainAst (B + 1))) "" (chainAst (B + 1)) rfl
  rw [dget_ast_success_max_depth _ _ _ rfl, visitDepth_chain (B + 1) 0] at h
  have : (0 + (B + 1) : Nat) ≤ (B : Nat) := by exact_mod_cast h
  omega

/-- C5, amended.  On every successfully parsed input the (recursive,
unbounded) traversal reports `max_depth` equal to the exact maximum of
all node depths, measured from the root with root depth = 0 (the root's
depth heads the canonical depth list). -/
theorem ast_max_depth_exact_from_root (parse : String → Option PyAst)
    (code : String) (t : PyAst) (h : parse code = some t) :
    dget (ast_features parse code) "max_depth" =
      (((nodeDepths t 0).foldl max 0 : Nat) : Rat) ∧
    (nodeDepths t 0).head? = some 0 := by
  refine ⟨?_, ?_⟩
  · rw [dget_ast_success_max_depth parse code t h, visitDepth_zero_eq]
  · cases t with
    | node k cs => rfl

theorem ast_max_depth_exact_from_root_witness :
    dget (ast_features (fun _ => some (PyAst.node "Module" [PyAst.node "FunctionDef" []])) "d")
        "max_depth" =
      (((nodeDepths (PyAst.node "Module" [PyAst.node "FunctionDef" []]) 0).foldl max 0 : Nat) : Rat) ∧
    (nodeDepths (PyAst.node "Module" [PyAst.node "FunctionDef" []]) 0).head? = some 0 :=
  ast_max_depth_exact_from_root (fun _ => some (PyAst.node "Module" [PyAst.node "FunctionDef" []]))
    "d" (PyAst.node "Module" [PyAst.node "FunctionDef" []]) rfl

/-- C6.  Calling `transform` before `fit` is a fatal usage error: on a
fresh extractor it returns the not-fitted error for every input list,
while any fitted extractor returns a feature matrix — so the failure is
distinct from the parse-failure path, which never produces an error. -/
theorem transform_before_fit_is_error :
    (∀ (mf : Nat) (parse : String → Option PyAst) (codes : List String),
        (CodeFeatureExtractor.init mf).transform parse codes =
          .error "NotFittedError: transform called before fit") ∧
    (∀ (mf : Nat) (st : TfidfState) (names : List String)
        (parse : String → Option PyAst) (codes : List String),
        ∃ rows,
          CodeFeatureExtractor.transform parse ⟨⟨mf, some st⟩, some names⟩ codes = .ok rows) :=
  ⟨fun _ _ _ => rfl, fun _ _ _ _ _ => ⟨_, rfl⟩⟩

/-- C7, counterexample.  The claim's universal — for every input no
token originating inside a string literal appears in the output — is
false of the code: a backslash does not act as an escape in the regex
grammar, so on the valid Python source `x = 'don\'t SECRET'` (whose
string literal content is the text between the outer quotes) the
substitution matches only up to the escaped quote and the literal's
tail leaks: the tokens `t` and `SECRET` from inside the literal survive
into the token stream. -/
theorem tokenize_escaped_quote_literal_leaks :
    tokenize_code "x = 'don\\'t SECRET'" = ["x", "t", "SECRET"] ∧
    "SECRET" ∈ tokenize_code "x = 'don\\'t SECRET'" := by
  decide

/-- C7, amended.  `tokenize_code` replaces each complete quoted literal
region of the regex grammar by a single whitespace before scanning —
for every quote-free prefix, every suffix, both quote characters, and
both the single-line form `q<body>q` (body free of the delimiter, and
an empty body not followed by a third quote) and the triple-quoted form
`qqq<body>qqq` (body free of the delimiter): tokenizing the text with
the literal equals tokenizing the text with the literal replaced by a
space, so no token of such a literal body reaches the token stream.
In particular `tokenize("x = 'SECRET_TOKEN'")` contains `"x"` but not
`"SECRET_TOKEN"`.  The delimiter grammar is not escape-aware, which is
the leak the counterexample records. -/
theorem tokenize_replaces_quoted_literal_with_space
    (q : Char) (hq : q = '\'' ∨ q = '"')
    (pre body rest : List Char)
    (hpre : ∀ c ∈ pre, ¬ (c = '\'' ∨ c = '"'))
    (hbody : q ∉ body) :
    ((body = [] → rest.head? ≠ some q) →
      tokenize_code ⟨pre ++ (q :: body ++ [q]) ++ rest⟩ =
        tokenize_code ⟨pre ++ ' ' :: rest⟩) ∧
    tokenize_code ⟨pre ++ (q :: q :: q :: body ++ [q, q, q]) ++ rest⟩ =
      tokenize_code ⟨pre ++ ' ' :: rest⟩ := by
  have hRHS : tokenize_code ⟨pre ++ ' ' :: rest⟩ =
      findTokensGo (pre ++ ' ' :: stripAux rest.length rest) none := by
    unfold tokenize_code
    have hd : (⟨pre ++ ' ' :: rest⟩ : String).data = pre ++ ' ' :: rest := rfl
    rw [hd]
    have hlen : (pre ++ ' ' :: rest).length = pre.length + (rest.length + 1) := by
      simp
    rw [hlen, stripAux_copies_nonquote_front pre hpre (rest.length + 1) (' ' :: rest),
       strip_step_nonquote (by decide)]
  constructor
  · intro hemp
    unfold tokenize_code
    have hd : (⟨pre ++ (q :: body ++ [q]) ++ rest⟩ : String).data =
        pre ++ (q :: (body ++ q :: rest)) := by
      simp
    rw [hd]
    have hlen : (pre ++ (q :: (body ++ q :: rest))).length =
        pre.length + ((body.length + rest.length + 1) + 1) := by
      simp
      omega
    rw [hlen, stripAux_copies_nonquote_front pre hpre _ _,
        strip_step_quoted hq hbody hemp]
    rw [stripAux_fuel (body.length + rest.length + 1) rest rest.length
        (by omega) (by omega)]
    rw [← hRHS]
    rfl
  · unfold tokenize_code
    have hd : (⟨pre ++ (q :: q :: q :: body ++ [q, q, q]) ++ rest⟩ : String).data =
        pre ++ (q :: q :: q :: (body ++ q :: q :: q :: rest)) := by
      simp
    rw [hd]
    have hlen : (pre ++ (q :: q :: q :: (body ++ q :: q :: q :: rest))).length =
        pre.length + ((body.length + rest.length + 5) + 1) := by
      simp
      omega
    rw [hlen, stripAux_copies_nonquote_front pre hpre _ _,
        strip_step_triple hq hbody]
    rw [stripAux_fuel (body.length + rest.length + 5) rest rest.length
        (by omega) (by omega)]
    rw [← hRHS]
    rfl

theorem tokenize_replaces_quoted_literal_with_space_witness :
    ("x" ∈ tokenize_code "x = 'SECRET_TOKEN'" ∧
      "SECRET_TOKEN" ∉ tokenize_code "x = 'SECRET_TOKEN'") ∧
    "SECRET" ∉ tokenize_code "v = \"\"\"DOC SECRET\"\"\"" := by
  have h1 := (tokenize_replaces_quoted_literal_with_space '\'' (Or.inl rfl)
    "x = ".data "SECRET_TOKEN".data [] (by decide) (by decide)).1 (by decide)
  have h2 := (tokenize_replaces_quoted_literal_with_space '"' (Or.inr rfl)
    "v = ".data "DOC SECRET".data [] (by decide) (by decide)).2
  have e1 : (⟨"x = ".data ++ ('\'' :: "SECRET_TOKEN".data ++ ['\'']) ++ ([] : List Char)⟩ :
      String) = "x = 'SECRET_TOKEN'" := by decide
  have e1r : (⟨"x = ".data ++ ' ' :: ([] : List Char)⟩ : String) = "x =  " := by decide
  have e2 : (⟨"v = ".data ++
      ('"' :: '"' :: '"' :: "DOC SECRET".data ++ ['"', '"', '"']) ++ ([] : List Char)⟩ :
      String) = "v = \"\"\"DOC SECRET\"\"\"" := by decide
  have e2r : (⟨"v = ".data ++ ' ' :: ([] : List Char)⟩ : String) = "v =  " := by decide
  rw [e1, e1r] at h1
  rw [e2, e2r] at h2
  refine ⟨⟨?_, ?_⟩, ?_⟩ <;> first
    | (rw [h1]; decide)
    | (rw [h2]; decide)

/-- C8.  The dataset synthesizer is deterministic under its seed: the
result does not depend on the pre-existing generator state (which
`random.seed(seed)` replaces), so two calls with the same `n_real`,
`n_hall` and `seed` return the identical ordered snippet and label
lists. -/
theorem synthetic_dataset_deterministic (g1 g2 : PyRandom) (n_real n_hall seed : Nat) :
    synthetic_dataset g1 n_real n_hall seed = synthetic_dataset g2 n_real n_hall seed := rfl

/-- C9.  For every input, `comment_ratio` is the exact value of
`comment_line_count / max(1, line_count)` — the denominator is always
positive, so it is defined even on empty input — and a 10-line snippet
with exactly 2 comment lines has `comment_ratio = 1/5 = 0.2`. -/
theorem comment_ratio_division_safe :
    (∀ code : String,
        dget (surface_features code) "comment_ratio" =
          mkRat ((pySplitlines code).filter isCommentLine).length
            (max 1 (pySplitlines code).length) ∧
        0 < max 1 (pySplitlines code).length) ∧
    dget (surface_features
        "# a\nx = 1\ny = 2\n# b\nz = 3\na = 4\nb = 5\nc = 6\nd = 7\ne = 8\n")
      "comment_ratio" = mkRat 1 5 := by
  refine ⟨fun code => ⟨rfl, ?_⟩, by decide⟩
  exact Nat.lt_of_lt_of_le Nat.zero_lt_one (le_max_left 1 _)

/-- C10.  After a completed fit, `numeric_feature_names` is exactly the
lexicographically sorted, duplicate-free union of the numeric feature
keys of the first 10 documents; the layout is therefore independent of
dict insertion order, and identical for any two fitted corpora whose
first-10-document key sets coincide. -/
theorem numeric_names_sorted_key_union (parse : String → Option PyAst)
    (fe0 : CodeFeatureExtractor) (corpus : List String)
    (hfit : isOkB (fe0.fit parse corpus) = true) :
    fittedNames (fe0.fit parse corpus) =
      pySorted (((corpus.take 10).map (numeric_features parse)).flatMap dkeys).dedup ∧
    List.Sorted strLeP (fittedNames (fe0.fit parse corpus)) ∧
    (fittedNames (fe0.fit parse corpus)).Nodup ∧
    ∀ (parse₂ : String → Option PyAst) (fe0₂ : CodeFeatureExtractor)
      (corpus₂ : List String),
      isOkB (fe0₂.fit parse₂ corpus₂) = true →
      (∀ k, k ∈ ((corpus.take 10).map (numeric_features parse)).flatMap dkeys ↔
            k ∈ ((corpus₂.take 10).map (numeric_features parse₂)).flatMap dkeys) →
      fittedNames (fe0.fit parse corpus) = fittedNames (fe0₂.fit parse₂ corpus₂) := by
  have h1 := fittedNames_ok hfit
  refine ⟨h1, ?_, ?_, ?_⟩
  · rw [h1]; exact pySorted_sorted _
  · rw [h1]; exact pySorted_dedup_nodup _
  · intro parse₂ fe0₂ corpus₂ hfit₂ hkeys
    rw [h1, fittedNames_ok hfit₂]
    exact pySorted_dedup_ext hkeys

theorem numeric_names_sorted_key_union_witness :
    isOkB (CodeFeatureExtractor.fit noParse (.init 800) ["a", "b"]) = true ∧
    isOkB (CodeFeatureExtractor.fit noParse (.init 800) ["b", "a"]) = true ∧
    fittedNames (CodeFeatureExtractor.fit noParse (.init 800) ["a", "b"]) =
      fittedNames (CodeFeatureExtractor.fit noParse (.init 800) ["b", "a"]) := by
  refine ⟨by decide, by decide, ?_⟩
  have hL : ((["a", "b"].take 10).map (numeric_features noParse)).flatMap dkeys =
      ((["b", "a"].take 10).map (numeric_features noParse)).flatMap dkeys := by decide
  exact (numeric_names_sorted_key_union noParse (.init 800) ["a", "b"] (by decide)).2.2.2
    noParse (.init 800) ["b", "a"] (by decide) (fun k => by rw [hL])

end HDVA
